import Mathlib

/-
Verification of the mask codec and its Python dispatch layer
(rpycocotools: src/rpycocotools/python/rpycocotools/mask.py).

The dispatch functions decode and encode are embedded directly from the
Python source.  The native codec functions they call (decode_rle,
decode_encoded_rle, decode_poly, decode_poly_rs, encode_to_rle) are not
part of the inspected sources; each is modelled from the specification
(sections 4.1 to 4.3) and carries a doc comment saying so.
-/

namespace Rpycocotools

/-- Errors surfaced by the codec and by the Python dispatch layer:
structural format violations, missing raster dimensions for polygon
decoding, a type error when the native polygon decoder receives a value
that is not a polygon set, and the Python UnboundLocalError raised by
encode when no match arm assigned the result variable. -/
inductive PyError where
  | formatError
  | missingDimensionsError
  | typeError
  | unboundLocalError
  deriving DecidableEq

/-- A dense binary mask: height, width, and the pixel values (each 0 or 1)
listed in column-major order. -/
structure DenseMask where
  height : Nat
  width : Nat
  pixels : List Nat
  deriving DecidableEq

/-- Structural invariant of a dense mask: the pixel list has exactly
height * width entries and every entry is 0 or 1. -/
def DenseMask.wellFormed (m : DenseMask) : Prop :=
  m.pixels.length = m.height * m.width ∧ ∀ p ∈ m.pixels, p ≤ 1

/-- Uncounted run-length encoding: alternating run lengths along the
column-major scan, starting with a background (0) run. -/
structure RLE where
  height : Nat
  width : Nat
  counts : List Nat
  deriving DecidableEq

/-- Compressed run-length encoding: an uninterpreted byte sequence holding the
variable-length delta-encoded run lengths. -/
structure EncodedRLE where
  height : Nat
  width : Nat
  data : List Nat
  deriving DecidableEq

/-- A polygon set without embedded raster size: a list of contours, each a
closed list of (x, y) vertices.  Coordinates are modelled as rationals. -/
structure Polygons where
  contours : List (List (Rat × Rat))
  deriving DecidableEq

/-- A self-contained polygon set: contours together with the embedded
raster height and width. -/
structure PolygonsRS where
  height : Nat
  width : Nat
  contours : List (List (Rat × Rat))
  deriving DecidableEq

/-- A Python value reaching the decode dispatcher: one of the four mask
variants of the package, or any other object (the dispatcher performs no
validation, so arbitrary values can reach its else branch). -/
inductive PyValue where
  | rle (r : RLE)
  | encodedRLE (e : EncodedRLE)
  | polygonsRS (p : PolygonsRS)
  | polygons (p : Polygons)
  | other (descr : String)
  deriving DecidableEq

/-- Expand alternating run lengths into a pixel list, the current value
starting at v and flipping between 0 and 1 at each run boundary. -/
def expandFrom (v : Nat) : List Nat → List Nat
  | [] => []
  | c :: cs => List.replicate c v ++ expandFrom (1 - v) cs

/-- Modelled from the spec: the native function decode_rle (section 4.1)
is absent from the inspected sources.  It walks the column-major pixel
index emitting the current value, flipping it when each run is exhausted,
and fails with FormatError when the counts do not sum to height * width. -/
def decode_rle (r : RLE) : Except PyError DenseMask :=
  if r.counts.sum = r.height * r.width then
    .ok ⟨r.height, r.width, expandFrom 0 r.counts⟩
  else
    .error .formatError

/-- Accumulate run lengths of a pixel list by detecting value transitions:
cur is the value of the run being accumulated and len its length so far. -/
def runsFrom (cur len : Nat) : List Nat → List Nat
  | [] => [len]
  | p :: ps => if p = cur then runsFrom cur (len + 1) ps else len :: runsFrom p 1 ps

/-- Modelled from the spec: the native function encode_to_rle
(section 4.1) is absent from the inspected sources.  It scans pixels in
column-major order accumulating run lengths from an implicit leading
background value of 0; a zero-area mask yields an empty counts list. -/
def encode_to_rle (m : DenseMask) : RLE :=
  ⟨m.height, m.width, if m.pixels = [] then [] else runsFrom 0 0 m.pixels⟩

/-- Read one variable-length integer from the byte stream: each byte holds
4 data bits (the low bits) and a continuation flag (the fifth bit); groups
are accumulated most significant first.  Returns none when the stream ends
while the continuation flag of the last byte read was still set. -/
def readVarintAux (acc : Nat) : List Nat → Option (Nat × List Nat)
  | [] => none
  | b :: bs =>
    if b / 16 % 2 = 1 then readVarintAux (acc * 16 + b % 16) bs
    else some (acc * 16 + b % 16, bs)

/-- Zig-zag decoding of an unsigned magnitude: the value is right-shifted
by one and the least significant bit determines the sign. -/
def zigzag (n : Nat) : Int :=
  if n % 2 = 1 then -((n / 2 : Nat) : Int) - 1 else ((n / 2 : Nat) : Int)

/-- The next run length: the first two stored values are taken directly,
every later one is a delta relative to the run two positions back.  The
accumulator holds the runs decoded so far in reverse order, so the run two
positions back is its second entry. -/
def nextRun (v : Nat) (acc : List Nat) : Int :=
  match acc with
  | _ :: p2 :: _ => zigzag v + (p2 : Int)
  | _ => zigzag v

theorem readVarintAux_length (bs : List Nat) : ∀ (acc v : Nat) (rest : List Nat),
    readVarintAux acc bs = some (v, rest) → rest.length < bs.length := by
  induction bs with
  | nil =>
    intro acc v rest hs
    simp [readVarintAux] at hs
  | cons b bs ih =>
    intro acc v rest hs
    simp only [readVarintAux] at hs
    split at hs
    · exact Nat.lt_succ_of_lt (ih _ _ _ hs)
    · simp only [Option.some.injEq, Prod.mk.injEq] at hs
      obtain ⟨-, rfl⟩ := hs
      exact Nat.lt_succ_self _

/-- Decode the whole byte stream into run lengths (accumulated in reverse
in acc), failing with FormatError on a truncated varint or a negative
reconstructed run. -/
def decodeCountsAux (bytes : List Nat) (acc : List Nat) : Except PyError (List Nat) :=
  match hv : readVarintAux 0 bytes with
  | none => if bytes = [] then .ok acc.reverse else .error .formatError
  | some (v, rest) =>
    if nextRun v acc < 0 then .error .formatError
    else decodeCountsAux rest ((nextRun v acc).toNat :: acc)
termination_by bytes.length
decreasing_by exact readVarintAux_length bytes 0 v rest hv

/-- Modelled from the spec: the byte-string decoding half of the native
function decode_encoded_rle (section 4.2) is absent from the inspected
sources.  The bytes are a sequence of variable-length zig-zag integers,
one per run, stored as deltas against the run two positions back. -/
def decodeCounts (bytes : List Nat) : Except PyError (List Nat) :=
  decodeCountsAux bytes []

/-- Modelled from the spec: the native function decode_encoded_rle
(section 4.2) is absent from the inspected sources.  It decompresses the
byte string into run lengths and then expands them as in section 4.1,
propagating FormatError from either stage. -/
def decode_encoded_rle (e : EncodedRLE) : Except PyError DenseMask :=
  match decodeCounts e.data with
  | .error err => .error err
  | .ok counts => decode_rle ⟨e.height, e.width, counts⟩

/-- The closed edge list of a contour: consecutive vertex pairs plus the
implied closing edge from the last vertex back to the first. -/
def closedEdges (poly : List (Rat × Rat)) : List ((Rat × Rat) × (Rat × Rat)) :=
  poly.zip (poly.drop 1 ++ poly.take 1)

/-- The x-intersection of an edge with the horizontal line at height ys,
using the half-open rule that skips edges horizontal at ys and counts each
crossing exactly once. -/
def edgeCrossing (ys : Rat) (e : (Rat × Rat) × (Rat × Rat)) : Option Rat :=
  if (e.1.2 ≤ ys ∧ ys < e.2.2) ∨ (e.2.2 ≤ ys ∧ ys < e.1.2) then
    some (e.1.1 + (ys - e.1.2) * (e.2.1 - e.1.1) / (e.2.2 - e.1.2))
  else none

/-- Clamp an intersection abscissa to the raster bounds. -/
def clampX (w : Nat) (x : Rat) : Rat := max 0 (min x (w : Rat))

/-- Whether one contour fills the pixel at column c, row r: the scanline
at r + 1/2 is intersected with the contour edges, intersections are
clamped to the raster, and the pixel center is inside by the even-odd
rule exactly when an odd number of intersections lies to its right. -/
def contourCovers (w : Nat) (poly : List (Rat × Rat)) (c r : Nat) : Bool :=
  let ys : Rat := (r : Rat) + 1 / 2
  let xs := ((closedEdges poly).filterMap (edgeCrossing ys)).map (clampX w)
  (xs.filter (fun x => decide ((c : Rat) + 1 / 2 < x))).length % 2 == 1

/-- Modelled from the spec: the scanline rasterizer (section 4.3) is
absent from the inspected sources.  Each contour is filled independently
with the even-odd rule sampled at pixel centers and the contours are
unioned; the result is listed in column-major order. -/
def rasterize (contours : List (List (Rat × Rat))) (w h : Nat) : DenseMask :=
  ⟨h, w,
    List.flatten ((List.range w).map (fun c =>
      (List.range h).map (fun r =>
        if contours.any (fun poly => contourCovers w poly c r) then 1 else 0)))⟩

/-- Modelled from the spec: the native function decode_poly (section 4.3)
is absent from the inspected sources.  It extracts a plain polygon set
from the Python value it is handed (failing with a type error otherwise),
fails with MissingDimensionsError when the width or the height argument
is absent, and otherwise rasterizes the contours. -/
def decode_poly (v : PyValue) (width height : Option Nat) : Except PyError DenseMask :=
  match v with
  | .polygons p =>
    match width, height with
    | some w, some h => .ok (rasterize p.contours w h)
    | _, _ => .error .missingDimensionsError
  | _ => .error .typeError

/-- Modelled from the spec: the native function decode_poly_rs
(section 4.3) is absent from the inspected sources.  The raster size is
embedded in the entity, so no external dimensions are consulted. -/
def decode_poly_rs (p : PolygonsRS) : Except PyError DenseMask :=
  .ok (rasterize p.contours p.width p.height)

/-- The decode dispatcher, embedded from mask.py: an isinstance chain over
RLE, EncodedRLE and PolygonsRS, with every other value falling through to
the else branch that hands the value itself to decode_poly together with
the width and height arguments (both default to none). -/
def decode (encoded_mask : PyValue) (width height : Option Nat) : Except PyError DenseMask :=
  match encoded_mask with
  | .rle r => decode_rle r
  | .encodedRLE e => decode_encoded_rle e
  | .polygonsRS p => decode_poly_rs p
  | _ => decode_poly encoded_mask width height

/-- The encode dispatcher, embedded from mask.py: a match on the target
string in which only the rle arm assigns the result variable; the
coco_rle, polygons and polygons_rs arms are pass statements and any other
target (including an omitted one, whose default is the Literal type
object rather than a string) matches no arm, so the final return reads an
unassigned local and raises UnboundLocalError. -/
def encode (mask : DenseMask) (target : Option String) : Except PyError RLE :=
  match target with
  | some "rle" => .ok (encode_to_rle mask)
  | some "coco_rle" => .error .unboundLocalError
  | some "polygons" => .error .unboundLocalError
  | some "polygons_rs" => .error .unboundLocalError
  | _ => .error .unboundLocalError

/-- Is the value one of the three variants the decode dispatcher checks
with isinstance before its else branch. -/
def matchesKnownVariant (v : PyValue) : Bool :=
  match v with
  | .rle _ => true
  | .encodedRLE _ => true
  | .polygonsRS _ => true
  | _ => false

/-- C2: decode returns exactly the value of the variant-appropriate codec
function: decode_rle for an RLE input, decode_encoded_rle for an
EncodedRLE input, decode_poly_rs for a PolygonsRS input, and decode_poly
applied to the value with the given width and height for a Polygons
input. -/
theorem decode_dispatches_to_codec :
    (∀ (r : RLE) (w h : Option Nat), decode (.rle r) w h = decode_rle r) ∧
    (∀ (e : EncodedRLE) (w h : Option Nat), decode (.encodedRLE e) w h = decode_encoded_rle e) ∧
    (∀ (p : PolygonsRS) (w h : Option Nat), decode (.polygonsRS p) w h = decode_poly_rs p) ∧
    (∀ (p : Polygons) (w h : Option Nat),
      decode (.polygons p) w h = decode_poly (.polygons p) w h) :=
  ⟨fun _ _ _ => rfl, fun _ _ _ => rfl, fun _ _ _ => rfl, fun _ _ _ => rfl⟩

/-- C7: the codec operations are deterministic: two calls of decode, of
encode, or of the rasterizer on identical arguments produce identical
results, there being no mutable state in the embedding. -/
theorem codec_deterministic :
    (∀ (em : PyValue) (w h : Option Nat), decode em w h = decode em w h) ∧
    (∀ (m : DenseMask) (t : Option String), encode m t = encode m t) ∧
    (∀ (cs : List (List (Rat × Rat))) (w h : Nat), rasterize cs w h = rasterize cs w h) :=
  ⟨fun _ _ _ => rfl, fun _ _ => rfl, fun _ _ _ => rfl⟩

/-- C9: decode performs no validation of the variant: every value that is
not an RLE, EncodedRLE or PolygonsRS instance, whether or not it is a
Polygons, falls through to the else branch and is handed to decode_poly
with the given width and height; decode itself never raises a dispatch
error. -/
theorem decode_else_fallthrough (v : PyValue) (w h : Option Nat)
    (hv : matchesKnownVariant v = false) :
    decode v w h = decode_poly v w h := by
  cases v with
  | rle r => simp [matchesKnownVariant] at hv
  | encodedRLE e => simp [matchesKnownVariant] at hv
  | polygonsRS p => simp [matchesKnownVariant] at hv
  | polygons p => rfl
  | other s => rfl

/-- Witness for C9 at a value that is not any mask variant. -/
theorem decode_else_fallthrough_witness :
    decode (.other "not a mask") none none = decode_poly (.other "not a mask") none none :=
  decode_else_fallthrough (.other "not a mask") none none (by decide)

/-- C10: the width and height arguments do not influence the result of
decode for the RLE, EncodedRLE and PolygonsRS variants: any two choices
of the dimension arguments give the same value. -/
theorem decode_dims_irrelevant_for_rle_variants :
    (∀ (r : RLE) (w1 h1 w2 h2 : Option Nat),
      decode (.rle r) w1 h1 = decode (.rle r) w2 h2) ∧
    (∀ (e : EncodedRLE) (w1 h1 w2 h2 : Option Nat),
      decode (.encodedRLE e) w1 h1 = decode (.encodedRLE e) w2 h2) ∧
    (∀ (p : PolygonsRS) (w1 h1 w2 h2 : Option Nat),
      decode (.polygonsRS p) w1 h1 = decode (.polygonsRS p) w2 h2) :=
  ⟨fun _ _ _ _ _ => rfl, fun _ _ _ _ _ => rfl, fun _ _ _ _ _ => rfl⟩

/-- C8: encode with any target other than the string rle, including the
documented alternatives and an omitted target, ends in UnboundLocalError
because no match arm assigned the result variable; only the rle target
returns an encoded mask. -/
theorem encode_nonrle_unbound :
    (∀ (m : DenseMask) (t : Option String), t ≠ some "rle" →
      encode m t = .error .unboundLocalError) ∧
    (∀ m : DenseMask, encode m (some "rle") = .ok (encode_to_rle m)) := by
  refine ⟨?_, fun _ => rfl⟩
  intro m t ht
  simp only [encode]
  split
  · exact absurd rfl ht
  · rfl
  · rfl
  · rfl
  · rfl

/-- Witness for C8 at the concrete non-rle targets named by the claim. -/
theorem encode_nonrle_unbound_witness :
    encode ⟨1, 1, [0]⟩ (some "coco_rle") = .error .unboundLocalError ∧
    encode ⟨1, 1, [0]⟩ (some "polygons") = .error .unboundLocalError ∧
    encode ⟨1, 1, [0]⟩ (some "polygons_rs") = .error .unboundLocalError ∧
    encode ⟨1, 1, [0]⟩ (some "polygon_rs") = .error .unboundLocalError ∧
    encode ⟨1, 1, [0]⟩ none = .error .unboundLocalError ∧
    encode ⟨1, 1, [0]⟩ (some "rle") = .ok (encode_to_rle ⟨1, 1, [0]⟩) :=
  ⟨encode_nonrle_unbound.1 _ _ (by decide),
   encode_nonrle_unbound.1 _ _ (by decide),
   encode_nonrle_unbound.1 _ _ (by decide),
   encode_nonrle_unbound.1 _ _ (by decide),
   encode_nonrle_unbound.1 _ _ (by decide),
   encode_nonrle_unbound.2 _⟩

/-- C4: decoding a plain Polygons value with either dimension argument
absent fails with MissingDimensionsError, while the self-contained
PolygonsRS variant decodes without external dimensions because the raster
size is embedded in the entity. -/
theorem decode_poly_requires_dims :
    (∀ (p : Polygons) (w h : Option Nat), w = none ∨ h = none →
      decode (.polygons p) w h = .error .missingDimensionsError) ∧
    (∀ p : PolygonsRS,
      decode (.polygonsRS p) none none = .ok (rasterize p.contours p.width p.height)) := by
  refine ⟨?_, fun _ => rfl⟩
  intro p w h hwh
  cases hwh with
  | inl hw => cases h <;> simp [decode, decode_poly, hw]
  | inr hh => cases w <;> simp [decode, decode_poly, hh]

/-- Witness for C4 at a concrete polygon set with a missing width and at
a concrete self-contained polygon set. -/
theorem decode_poly_requires_dims_witness :
    decode (.polygons ⟨[]⟩) none (some 2) = .error .missingDimensionsError ∧
    decode (.polygonsRS ⟨1, 1, []⟩) none none =
      .ok (rasterize (PolygonsRS.mk 1 1 []).contours 1 1) :=
  ⟨decode_poly_requires_dims.1 ⟨[]⟩ none (some 2) (Or.inl rfl),
   decode_poly_requires_dims.2 ⟨1, 1, []⟩⟩

theorem runsFrom_sum (ps : List Nat) : ∀ (cur len : Nat),
    (runsFrom cur len ps).sum = len + ps.length := by
  induction ps with
  | nil => intro cur len; simp [runsFrom]
  | cons p ps ih =>
    intro cur len
    by_cases hp : p = cur
    · simp only [runsFrom, if_pos hp, ih]
      simp; omega
    · simp only [runsFrom, if_neg hp, List.sum_cons, ih]
      simp; omega

theorem expandFrom_runsFrom (ps : List Nat) : ∀ (cur len : Nat), cur ≤ 1 →
    (∀ p ∈ ps, p ≤ 1) →
    expandFrom cur (runsFrom cur len ps) = List.replicate len cur ++ ps := by
  induction ps with
  | nil =>
    intro cur len _ _
    simp [runsFrom, expandFrom]
  | cons p ps ih =>
    intro cur len hcur hps
    by_cases hp : p = cur
    · subst hp
      have hstep : runsFrom p len (p :: ps) = runsFrom p (len + 1) ps := by
        simp [runsFrom]
      rw [hstep, ih p (len + 1) hcur (fun q hq => hps q (by simp [hq])),
        List.replicate_succ', List.append_assoc]
      simp
    · have hple : p ≤ 1 := hps p (by simp)
      have h1c : 1 - cur = p := by omega
      simp only [runsFrom, if_neg hp, expandFrom, h1c]
      rw [ih p 1 hple (fun q hq => hps q (by simp [hq]))]
      simp

theorem runsFrom_pos (ps : List Nat) : ∀ (cur len : Nat), 1 ≤ len →
    0 ∉ runsFrom cur len ps := by
  induction ps with
  | nil => intro cur len hlen; simp [runsFrom]; omega
  | cons p ps ih =>
    intro cur len hlen
    by_cases hp : p = cur
    · simp only [runsFrom, if_pos hp]
      exact ih cur (len + 1) (by omega)
    · simp only [runsFrom, if_neg hp, List.mem_cons]
      rintro (h0 | h0)
      · omega
      · exact ih p 1 (by omega) h0

theorem runsFrom_tail_pos (ps : List Nat) (cur len : Nat) :
    0 ∉ (runsFrom cur len ps).tail := by
  cases ps with
  | nil => simp [runsFrom]
  | cons p ps =>
    by_cases hp : p = cur
    · simp only [runsFrom, if_pos hp]
      intro h0
      exact runsFrom_pos ps cur (len + 1) (by omega) (List.mem_of_mem_tail h0)
    · simp only [runsFrom, if_neg hp, List.tail_cons]
      exact runsFrom_pos ps p 1 (by omega)

theorem decode_rle_mk (hh ww : Nat) (cs : List Nat) :
    decode_rle ⟨hh, ww, cs⟩ =
      if cs.sum = hh * ww then Except.ok ⟨hh, ww, expandFrom 0 cs⟩
      else Except.error PyError.formatError := rfl

theorem encode_to_rle_nil (m : DenseMask) (hpx : m.pixels = []) :
    encode_to_rle m = ⟨m.height, m.width, []⟩ := by
  simp [encode_to_rle, hpx]

theorem encode_to_rle_ne (m : DenseMask) (hpx : m.pixels ≠ []) :
    encode_to_rle m = ⟨m.height, m.width, runsFrom 0 0 m.pixels⟩ := by
  simp [encode_to_rle, hpx]

/-- C1: the dense to run-length round trip is exact: encoding a
well-formed dense mask to the rle target and decoding the result through
the dispatcher reproduces the mask, whatever dimension arguments are
passed to decode. -/
theorem rle_roundtrip (m : DenseMask) (r : RLE) (w h : Option Nat)
    (hm : m.wellFormed) (he : encode m (some "rle") = .ok r) :
    decode (.rle r) w h = .ok m := by
  have hr : r = encode_to_rle m := by
    have h2 : (Except.ok (encode_to_rle m) : Except PyError RLE) = .ok r := he
    exact (Except.ok.inj h2).symm
  subst hr
  obtain ⟨hlen, hvals⟩ := hm
  show decode_rle (encode_to_rle m) = .ok m
  by_cases hpx : m.pixels = []
  · have hlen0 : (0 : Nat) = m.height * m.width := by
      rw [hpx] at hlen
      simpa using hlen
    have hm2 : m = ⟨m.height, m.width, []⟩ := by
      cases m
      simpa using hpx
    rw [encode_to_rle_nil m hpx, decode_rle_mk, List.sum_nil, if_pos hlen0,
      expandFrom]
    exact congrArg Except.ok hm2.symm
  · rw [encode_to_rle_ne m hpx, decode_rle_mk, runsFrom_sum, Nat.zero_add,
      if_pos hlen, expandFrom_runsFrom m.pixels 0 0 (by omega) hvals]
    simp

/-- Witness for C1: the single-pixel mask round-trips in both the
all-background and the all-foreground state. -/
theorem rle_roundtrip_witness :
    decode (.rle (encode_to_rle ⟨1, 1, [0]⟩)) none none = .ok ⟨1, 1, [0]⟩ ∧
    decode (.rle (encode_to_rle ⟨1, 1, [1]⟩)) none none = .ok ⟨1, 1, [1]⟩ :=
  ⟨rle_roundtrip ⟨1, 1, [0]⟩ (encode_to_rle ⟨1, 1, [0]⟩) none none
      ⟨rfl, by decide⟩ rfl,
   rle_roundtrip ⟨1, 1, [1]⟩ (encode_to_rle ⟨1, 1, [1]⟩) none none
      ⟨rfl, by decide⟩ rfl⟩

/-- C5: structural invariant of run-length encodings.  Every RLE produced
by encoding a well-formed mask has counts summing to height times width,
has no empty run after the leading one (the runs strictly alternate), and
expanding its counts with even-indexed runs read as background reproduces
the mask; and every RLE the decoder consumes successfully satisfies the
sum invariant. -/
theorem rle_invariant (m : DenseMask) (r : RLE) (d : DenseMask)
    (hm : m.wellFormed) (hr : decode_rle r = .ok d) :
    ((encode_to_rle m).counts.sum = (encode_to_rle m).height * (encode_to_rle m).width ∧
      0 ∉ (encode_to_rle m).counts.tail ∧
      expandFrom 0 (encode_to_rle m).counts = m.pixels) ∧
    r.counts.sum = r.height * r.width := by
  obtain ⟨hlen, hvals⟩ := hm
  constructor
  · by_cases hpx : m.pixels = []
    · have hlen0 : (0 : Nat) = m.height * m.width := by
        rw [hpx] at hlen
        simpa using hlen
      rw [encode_to_rle_nil m hpx]
      refine ⟨by simpa using hlen0, by simp, ?_⟩
      rw [expandFrom, hpx]
    · rw [encode_to_rle_ne m hpx]
      refine ⟨?_, runsFrom_tail_pos m.pixels 0 0, ?_⟩
      · show (runsFrom 0 0 m.pixels).sum = m.height * m.width
        rw [runsFrom_sum]
        omega
      · show expandFrom 0 (runsFrom 0 0 m.pixels) = m.pixels
        rw [expandFrom_runsFrom m.pixels 0 0 (by omega) hvals]
        simp
  · by_contra hsum
    rw [show r = RLE.mk r.height r.width r.counts from rfl, decode_rle_mk,
      if_neg hsum] at hr
    exact Except.noConfusion hr

/-- Witness for C5 at a concrete mask and a concrete RLE the decoder
accepts. -/
theorem rle_invariant_witness :
    (((encode_to_rle ⟨2, 2, [0, 1, 1, 0]⟩).counts.sum =
        (encode_to_rle ⟨2, 2, [0, 1, 1, 0]⟩).height *
          (encode_to_rle ⟨2, 2, [0, 1, 1, 0]⟩).width ∧
      0 ∉ (encode_to_rle ⟨2, 2, [0, 1, 1, 0]⟩).counts.tail ∧
      expandFrom 0 (encode_to_rle ⟨2, 2, [0, 1, 1, 0]⟩).counts = [0, 1, 1, 0]) ∧
    (RLE.mk 1 2 [1, 1]).counts.sum = (RLE.mk 1 2 [1, 1]).height * (RLE.mk 1 2 [1, 1]).width) :=
  rle_invariant ⟨2, 2, [0, 1, 1, 0]⟩ ⟨1, 2, [1, 1]⟩ ⟨1, 2, [0, 1]⟩
    ⟨rfl, by decide⟩ rfl

theorem runsFrom_replicate (n : Nat) : ∀ (cur len : Nat),
    runsFrom cur len (List.replicate n cur) = [len + n] := by
  induction n with
  | zero => intro cur len; simp [runsFrom]
  | succ n ih =>
    intro cur len
    rw [List.replicate_succ,
      show runsFrom cur len (cur :: List.replicate n cur) =
        runsFrom cur (len + 1) (List.replicate n cur) from by simp [runsFrom],
      ih]
    congr 1
    omega

/-- C6: the encoder edge cases: an all-background mask encodes to the
single count height times width, an all-foreground mask to a leading zero
followed by height times width, a zero-area mask to an empty counts list,
and the 2 by 2 mask with column-major pixels 0,1,1,0 encodes to the
counts 1,2,1. -/
theorem encode_edge_cases :
    (∀ hh ww : Nat, 0 < hh * ww →
      encode_to_rle ⟨hh, ww, List.replicate (hh * ww) 0⟩ = ⟨hh, ww, [hh * ww]⟩) ∧
    (∀ hh ww : Nat, 0 < hh * ww →
      encode_to_rle ⟨hh, ww, List.replicate (hh * ww) 1⟩ = ⟨hh, ww, [0, hh * ww]⟩) ∧
    (∀ m : DenseMask, m.height = 0 ∨ m.width = 0 →
      m.pixels.length = m.height * m.width → (encode_to_rle m).counts = []) ∧
    encode_to_rle ⟨2, 2, [0, 1, 1, 0]⟩ = ⟨2, 2, [1, 2, 1]⟩ := by
  refine ⟨?_, ?_, ?_, by decide⟩
  · intro hh ww hpos
    have hn : hh * ww = hh * ww - 1 + 1 := (Nat.succ_pred_eq_of_pos hpos).symm
    rw [hn]
    have hne : List.replicate (hh * ww - 1 + 1) 0 ≠ [] := by simp
    rw [encode_to_rle_ne ⟨hh, ww, List.replicate (hh * ww - 1 + 1) 0⟩ hne]
    show RLE.mk hh ww (runsFrom 0 0 (List.replicate (hh * ww - 1 + 1) 0)) = _
    rw [runsFrom_replicate]
    simp
  · intro hh ww hpos
    have hn : hh * ww = hh * ww - 1 + 1 := (Nat.succ_pred_eq_of_pos hpos).symm
    rw [hn]
    have hne : List.replicate (hh * ww - 1 + 1) 1 ≠ [] := by simp
    rw [encode_to_rle_ne ⟨hh, ww, List.replicate (hh * ww - 1 + 1) 1⟩ hne]
    show RLE.mk hh ww (runsFrom 0 0 (List.replicate (hh * ww - 1 + 1) 1)) = _
    rw [List.replicate_succ,
      show runsFrom 0 0 (1 :: List.replicate (hh * ww - 1) 1) =
        0 :: runsFrom 1 1 (List.replicate (hh * ww - 1) 1) from by simp [runsFrom],
      runsFrom_replicate]
    simp [Nat.add_comm]
  · intro m hzero hlen
    have hw : m.height * m.width = 0 := by
      cases hzero with
      | inl h0 => simp [h0]
      | inr h0 => simp [h0]
    rw [hw] at hlen
    have hpx : m.pixels = [] := List.length_eq_zero.mp hlen
    rw [encode_to_rle_nil m hpx]

/-- Witness for C6 at concrete masks for each edge case. -/
theorem encode_edge_cases_witness :
    encode_to_rle ⟨3, 3, List.replicate (3 * 3) 0⟩ = ⟨3, 3, [3 * 3]⟩ ∧
    encode_to_rle ⟨1, 1, List.replicate (1 * 1) 1⟩ = ⟨1, 1, [0, 1 * 1]⟩ ∧
    (encode_to_rle ⟨0, 5, []⟩).counts = [] ∧
    encode_to_rle ⟨2, 2, [0, 1, 1, 0]⟩ = ⟨2, 2, [1, 2, 1]⟩ :=
  ⟨encode_edge_cases.1 3 3 (by decide),
   encode_edge_cases.2.1 1 1 (by decide),
   encode_edge_cases.2.2.1 ⟨0, 5, []⟩ (Or.inl rfl) (by decide),
   encode_edge_cases.2.2.2⟩

theorem readVarintAux_dangling (bs : List Nat) : ∀ (acc last : Nat),
    bs.getLast? = some last → last / 16 % 2 = 1 →
    readVarintAux acc bs = none ∨
      ∃ v rest, readVarintAux acc bs = some (v, rest) ∧ rest.getLast? = some last := by
  induction bs with
  | nil =>
    intro acc last hlast _
    simp at hlast
  | cons b bs ih =>
    intro acc last hlast hbit
    cases bs with
    | nil =>
      have hb : b = last := by simpa using hlast
      subst hb
      left
      simp [readVarintAux, hbit]
    | cons b2 bs2 =>
      have hl2 : (b2 :: bs2).getLast? = some last := by
        rw [← List.getLast?_cons_cons]
        exact hlast
      simp only [readVarintAux]
      split
      · exact ih _ _ hl2 hbit
      · right
        exact ⟨_, _, rfl, hl2⟩

theorem decodeCountsAux_dangling (n : Nat) : ∀ (bs : List Nat), bs.length ≤ n →
    ∀ (acc : List Nat) (last : Nat), bs.getLast? = some last → last / 16 % 2 = 1 →
    decodeCountsAux bs acc = .error .formatError := by
  induction n with
  | zero =>
    intro bs hlen acc last hlast _
    have hnil : bs = [] := List.eq_nil_of_length_eq_zero (Nat.le_zero.mp hlen)
    rw [hnil] at hlast
    simp at hlast
  | succ n ih =>
    intro bs hlen acc last hlast hbit
    have hne : bs ≠ [] := by
      intro hnil
      rw [hnil] at hlast
      simp at hlast
    rcases readVarintAux_dangling bs 0 last hlast hbit with hnone | ⟨v, rest, hsome, hrl⟩
    · unfold decodeCountsAux
      rw [hnone]
      simp [hne]
    · have hlt : rest.length < bs.length := readVarintAux_length bs 0 v rest hsome
      unfold decodeCountsAux
      rw [hsome]
      dsimp only
      by_cases hrun : nextRun v acc < 0
      · rw [if_pos hrun]
      · rw [if_neg hrun]
        exact ih rest (by omega) _ last hrl hbit

/-- C3: structurally invalid inputs fail decode with FormatError: an RLE
whose counts do not sum to height times width, and a compressed byte
string whose last byte still has the continuation bit set, both decode to
the FormatError result rather than to any truncated mask. -/
theorem decode_invalid_format_error :
    (∀ (r : RLE) (w h : Option Nat), r.counts.sum ≠ r.height * r.width →
      decode (.rle r) w h = .error .formatError) ∧
    (∀ (e : EncodedRLE) (w h : Option Nat) (last : Nat),
      e.data.getLast? = some last → last / 16 % 2 = 1 →
      decode (.encodedRLE e) w h = .error .formatError) := by
  constructor
  · intro r w h hsum
    show decode_rle r = _
    rw [show r = RLE.mk r.height r.width r.counts from rfl, decode_rle_mk,
      if_neg hsum]
  · intro e w h last hlast hbit
    show decode_encoded_rle e = _
    have hd : decodeCounts e.data = .error .formatError :=
      decodeCountsAux_dangling e.data.length e.data (le_refl _) [] last hlast hbit
    rw [decode_encoded_rle, hd]

/-- Witness for C3: a one-pixel RLE whose single count is 5, and a byte
string whose only byte is 16 (data bits 0, continuation bit set). -/
theorem decode_invalid_format_error_witness :
    decode (.rle ⟨1, 1, [5]⟩) none none = .error .formatError ∧
    decode (.encodedRLE ⟨1, 1, [16]⟩) none none = .error .formatError :=
  ⟨decode_invalid_format_error.1 ⟨1, 1, [5]⟩ none none (by decide),
   decode_invalid_format_error.2 ⟨1, 1, [16]⟩ none none 16 rfl (by decide)⟩

end Rpycocotools
